import Mathlib

/-!
BookGlide: page index scheduler, page catalog, skinning and skeleton.

Shallow embedding of the algorithmic parts of `src/components/Book.jsx` and
`src/components/UI.jsx`.  Page indices are JavaScript integers, modelled by `Int`;
geometric quantities are taken in exact arithmetic, modelled by `ℚ`.
-/

namespace BookGlide

/-! ## Page index scheduler (`Book`, Book.jsx lines 224-239) -/

/-- Outcome of one run of the state updater passed to `setDelayedPage` inside `goToPage`:
the value it returns (the new `delayedPage`) and the delay of the `setTimeout(goToPage, …)`
it registers, `none` when it registers no timer. -/
structure Tick where
  delayedPage : Int
  delay : Option Nat
  deriving DecidableEq, Repr

/-- The updater of `goToPage` (Book.jsx lines 231-235), `page` being the value captured by
the effect closure:
```
if (page === delayedPage) return delayedPage;
timeout = setTimeout(goToPage, Math.abs(page - delayedPage) > 2 ? 50 : 150);
return page > delayedPage ? delayedPage + 1 : delayedPage - 1;
``` -/
def goToPage (page delayedPage : Int) : Tick :=
  if page = delayedPage then ⟨delayedPage, none⟩
  else
    ⟨if page > delayedPage then delayedPage + 1 else delayedPage - 1,
     some (if Int.natAbs (page - delayedPage) > 2 then 50 else 150)⟩

/-- Value of `delayedPage` after `k` runs of `goToPage` with the captured `page` held
fixed, starting from `delayedPage = d`. -/
def displayedAfter (page : Int) : Nat → Int → Int
  | 0, d => d
  | k + 1, d => displayedAfter page k (goToPage page d).delayedPage

/-! ### The scheduler as an event-driven state machine

`Book` reads the target from `pageAtom` (`page`), keeps the displayed index in `useState`
(`delayedPage`) and installs an effect with dependency list `[page]`.  Each instance of the
effect has its own closure: the `page` of the render that created it and the variable
`timeout`.  The browser keeps the pending timers.  Three things can happen, in any order:
a command writes the atom; React commits a render of `Book`, re-running the effect when
`page` differs from the value of the last committed render; a pending timer fires.  The
updater passed to `setDelayedPage` is taken to run once per call. -/

/-- A pending `setTimeout(goToPage, delay)`: its id, the effect instance whose `goToPage`
it will call, the `page` that instance captured, and the delay. -/
structure Timer where
  id : Nat
  effect : Nat
  page : Int
  delay : Nat
  deriving DecidableEq, Repr

/-- State of `Book` together with the browser's pending timers. -/
structure BookState where
  /-- value of `pageAtom` (TargetPageIndex) -/
  page : Int
  /-- value of the `delayedPage` state (DisplayedPageIndex) -/
  delayedPage : Int
  /-- the `page` of the last committed render, captured by the installed effect instance -/
  rendered : Int
  /-- the effect instance currently installed -/
  effect : Nat
  /-- the variable `timeout` of each effect instance, `none` being `undefined` -/
  timeout : Nat → Option Nat
  /-- pending timers, oldest first -/
  timers : List Timer
  /-- the id the next `setTimeout` returns -/
  nextId : Nat

/-- One call `goToPage()` of effect instance `e`, which captured `p`: the updater runs on
the current `delayedPage`; when it registers a timer, the id is stored in that instance's
`timeout`. -/
def runGoToPage (e : Nat) (p : Int) (s : BookState) : BookState :=
  match (goToPage p s.delayedPage).delay with
  | none => { s with delayedPage := (goToPage p s.delayedPage).delayedPage }
  | some ms =>
    { s with
      delayedPage := (goToPage p s.delayedPage).delayedPage
      timers := s.timers ++ [⟨s.nextId, e, p, ms⟩]
      timeout := Function.update s.timeout e (some s.nextId)
      nextId := s.nextId + 1 }

/-- The call `clearTimeout(id)`; `clearTimeout(undefined)` does nothing. -/
def clearTimeout (id : Option Nat) (s : BookState) : BookState :=
  match id with
  | none => s
  | some i => { s with timers := s.timers.filter (fun tm => tm.id ≠ i) }

/-- The call `setPage(c)` on `pageAtom` (UI.jsx lines 80 and 92, Book.jsx line 210):
`pageAtom` is `atom(0)` (UI.jsx line 25), a plain atom, so `c` is stored as it is, and
nothing else happens in the call. -/
def setPage (c : Int) (s : BookState) : BookState :=
  { s with page := c }

/-- React commits a render of `Book` (Book.jsx lines 225-239).  When `page` is the value
of the last committed render the effect is left alone.  Otherwise the effect is re-run:
the cleanup of the installed instance, `clearTimeout(timeout)` (line 238), then a new
instance that captures the new `page`, with `let timeout;` and the call `goToPage()`
(line 237). -/
def commitEffect (s : BookState) : BookState :=
  if s.page = s.rendered then s
  else
    runGoToPage (s.effect + 1) s.page
      { clearTimeout (s.timeout s.effect) s with
        rendered := s.page
        effect := s.effect + 1
        timeout := Function.update (clearTimeout (s.timeout s.effect) s).timeout
          (s.effect + 1) none }

/-- The browser fires the pending timer `id` (nothing happens for an id that is not
pending): the timer is removed and the `goToPage` of its effect instance is called. -/
def fire (id : Nat) (s : BookState) : BookState :=
  match s.timers.find? (fun tm => tm.id = id) with
  | none => s
  | some tm =>
    runGoToPage tm.effect tm.page { s with timers := s.timers.filter (fun x => x.id ≠ id) }

/-- State after `Book` is mounted: `pageAtom` holds its default `0`, `useState(page)`
gives `delayedPage = 0`, and the first effect instance has called `goToPage()`. -/
def initial : BookState :=
  runGoToPage 0 0
    { page := 0, delayedPage := 0, rendered := 0, effect := 0, timeout := fun _ => none,
      timers := [], nextId := 0 }

/-- What can happen to the scheduler: a page-selection command writes the atom, React
commits a render of `Book`, or a timer fires. -/
inductive Event where
  | select (c : Int)
  | commit
  | timer (id : Nat)
  deriving DecidableEq, Repr

/-- Effect of one event. -/
def Event.apply : Event → BookState → BookState
  | .select c, s => setPage c s
  | .commit, s => commitEffect s
  | .timer id, s => fire id s

/-- Effect of a sequence of events, first event first. -/
def run : List Event → BookState → BookState
  | [], s => s
  | e :: es, s => run es (e.apply s)

/-- Invariant of the scheduler: every pending timer belongs to the installed effect
instance, carries the `page` that instance captured, is the one named by that instance's
`timeout`, and has an id already handed out. -/
def Inv (s : BookState) : Prop :=
  ∀ tm ∈ s.timers,
    tm.effect = s.effect ∧ tm.page = s.rendered ∧ s.timeout s.effect = some tm.id ∧
      tm.id < s.nextId

/-! ### Timeline of one convergence -/

/-- A run of `goToPage` that changed `delayedPage`: the delay of the timer that called it
(`0` for the call made directly by the effect, line 237), and `delayedPage` before and
after. -/
structure Step where
  waited : Nat
  before : Int
  after : Int
  deriving DecidableEq, Repr

/-- The steps of the convergence toward `page` from `delayedPage = d`, the next call of
`goToPage` coming after a wait of `w`; `none` when `fuel` calls do not reach the call that
registers no timer. -/
def convergence (page : Int) : Nat → Nat → Int → Option (List Step)
  | 0, _, _ => none
  | fuel + 1, w, d =>
    match (goToPage page d).delay with
    | none => some []
    | some ms =>
      (convergence page fuel ms (goToPage page d).delayedPage).map
        (fun rest => ⟨w, d, (goToPage page d).delayedPage⟩ :: rest)

/-! ## Page catalog (UI.jsx lines 5-47) -/

/-- An entry of `pages`; `none` stands for JavaScript's `undefined` (an array read out of
range). -/
structure PageDescriptor where
  front : Option String
  back : Option String
  deriving DecidableEq, Repr

/-- The loop `for (let i = 1; i < pictures.length - 1; i += 2) pages.push(…)` of UI.jsx
lines 36-41, from counter `i` with `acc` the array built so far; `none` when `fuel`
iterations do not reach the exit of the loop. -/
def pagesLoop (pictures : List String) : Nat → Nat → List PageDescriptor →
    Option (List PageDescriptor)
  | 0, _, _ => none
  | fuel + 1, i, acc =>
    if (i : Int) < (pictures.length : Int) - 1 then
      pagesLoop pictures fuel (i + 2)
        (acc ++ [⟨pictures[i % pictures.length]?, pictures[(i + 1) % pictures.length]?⟩])
    else some acc

/-- The construction of `pages` (UI.jsx lines 28-47) for an image list `pictures`: the
first entry, the loop, the final entry. -/
def buildPages (pictures : List String) : Option (List PageDescriptor) :=
  (pagesLoop pictures (pictures.length + 1) 1 [⟨some "book-cover", pictures[0]?⟩]).map
    (fun acc => acc ++ [⟨pictures[pictures.length - 1]?, some "book-back"⟩])

/-- The array `pictures` of UI.jsx lines 5-22. -/
def pictures : List String :=
  ["DSC00680", "DSC00933", "DSC00966", "DSC00983", "DSC01011", "DSC01040", "DSC01064",
   "DSC01071", "DSC01103", "DSC01145", "DSC01420", "DSC01461", "DSC01489", "DSC02031",
   "DSC02064", "DSC02069"]

/-- The array `pages` the repository builds. -/
def pages : Option (List PageDescriptor) := buildPages pictures

/-! ## Page-selection commands issued by the interface -/

/-- Navigation button `index` (UI.jsx line 80): `setPage(index)`. -/
def navButton (index : Nat) : Int := index

/-- The back-cover button (UI.jsx line 92): `setPage(pages.length)`. -/
def backCoverButton (len : Nat) : Int := len

/-- Click on page `number` (Book.jsx line 210): `setPage(opened ? number : number + 1)`. -/
def pageClick (number : Nat) (opened : Bool) : Int :=
  if opened then (number : Int) else (number : Int) + 1

/-- Every command the interface can issue for a catalog of `len` entries: one button and
one clickable page per entry, and the back-cover button. -/
def uiCommands (len : Nat) : List Int :=
  (List.range len).map navButton ++ [backCoverButton len] ++
    (List.range len).map (fun n => pageClick n true) ++
    (List.range len).map (fun n => pageClick n false)

/-! ## Skinning attributes (Book.jsx lines 52-62), in exact arithmetic -/

/-- JavaScript's `x % w`: the remainder has the sign of `x` (the quotient is truncated
toward zero). -/
def jsMod (x w : ℚ) : ℚ :=
  x - w * ((if 0 ≤ x / w then ⌊x / w⌋ else ⌈x / w⌉ : Int) : ℚ)

/-- Line 57: `Math.max(0, Math.floor(x / SEGMENT_WIDTH))`. -/
def skinIndex (W x : ℚ) : Int := max 0 ⌊x / W⌋

/-- Line 58: `(x % SEGMENT_WIDTH) / SEGMENT_WIDTH`. -/
def skinWeight (W x : ℚ) : ℚ := jsMod x W / W

/-- Line 60: the four joint indices pushed for a vertex at offset `x`. -/
def skinIndexes (W x : ℚ) : List Int := [skinIndex W x, skinIndex W x + 1, 0, 0]

/-- Line 61: the four weights pushed for a vertex at offset `x`. -/
def skinWeights (W x : ℚ) : List ℚ := [1 - skinWeight W x, skinWeight W x, 0, 0]

/-! ## Skeleton (Book.jsx lines 121-135) -/

/-- A `Bone`: its local `position.x` and the bone it was added to, as an index into
`bones` (`none`: added to no bone). -/
structure Bone where
  positionX : ℚ
  parent : Option Nat
  deriving DecidableEq, Repr

/-- The loop `for (let i = 0; i <= PAGE_SEGMENTS; i++)` of lines 123-134, from counter `i`
with `bones` the array built so far; `none` when `fuel` iterations do not reach the exit. -/
def bonesLoop (N : Nat) (W : ℚ) : Nat → Nat → List Bone → Option (List Bone)
  | 0, _, _ => none
  | fuel + 1, i, bones =>
    if i ≤ N then
      bonesLoop N W fuel (i + 1)
        (bones ++ [⟨if i = 0 then 0 else W, if i > 0 then some (i - 1) else none⟩])
    else some bones

/-- The array `bones` built for `N` segments of width `W`. -/
def buildBones (N : Nat) (W : ℚ) : Option (List Bone) := bonesLoop N W (N + 2) 0 []

/-- Offset of joint `i` from the root of the chain along the bend axis in the rest pose
(no joint rotated): its local offset added to that of its parent chain. -/
def restX (bones : List Bone) : Nat → Nat → ℚ
  | 0, _ => 0
  | fuel + 1, i =>
    match bones[i]? with
    | none => 0
    | some b =>
      b.positionX + (match b.parent with
        | none => 0
        | some p => restX bones fuel p)

/-! ## Frame callback of `Page` (Book.jsx lines 114-118 and 178-190) -/

/-- The mutable values a `Page` keeps between frames: the refs `turnedAt` and
`lastOpened`, and the emissive intensity of materials 4 and 5. -/
structure PageRefs where
  turnedAt : Nat
  lastOpened : Bool
  emissiveIntensity : ℚ
  deriving DecidableEq, Repr

/-- The refs at mount: `useRef(0)`, `useRef(opened)`, and `emissiveIntensity: 0`. -/
def PageRefs.mount (opened : Bool) : PageRefs := ⟨0, opened, 0⟩

/-- `MathUtils.lerp(x, y, t)` of three.js. -/
def lerp (x y t : ℚ) : ℚ := (1 - t) * x + t * y

/-- The callback passed to `useFrame` (lines 178-190) at time `now`, for a page whose
prop `opened` is `delayedPage > number`: it returns at once when the mesh ref is empty,
and otherwise eases the emissive intensity; the body ends there. -/
def useFrame (meshReady highlighted : Bool) (_opened : Bool) (_now : Nat)
    (r : PageRefs) : PageRefs :=
  if !meshReady then r
  else { r with emissiveIntensity := lerp r.emissiveIntensity (if highlighted then 22 / 100 else 0) (1 / 10) }

/-- The prop `opened` passed to page `index` (Book.jsx line 248). -/
def openedProp (delayedPage : Int) (index : Nat) : Bool := decide (delayedPage > index)

/-! ### Lemmas on the scheduler step -/

lemma goToPage_eq (t : Int) : goToPage t t = ⟨t, none⟩ := by
  simp [goToPage]

lemma goToPage_lt {t d : Int} (h : d < t) :
    goToPage t d = ⟨d + 1, some (if Int.natAbs (t - d) > 2 then 50 else 150)⟩ := by
  have h1 : t ≠ d := by omega
  simp [goToPage, h1, h]

lemma goToPage_gt {t d : Int} (h : t < d) :
    goToPage t d = ⟨d - 1, some (if Int.natAbs (t - d) > 2 then 50 else 150)⟩ := by
  have h1 : t ≠ d := by omega
  have h2 : ¬ d < t := by omega
  simp [goToPage, h1, h2]

lemma displayedAfter_closed (t : Int) (k : Nat) (d : Int) :
    displayedAfter t k d
      = d + Int.sign (t - d) * ((min k (Int.natAbs (t - d)) : Nat) : Int) := by
  induction k generalizing d with
  | zero => simp [displayedAfter]
  | succ k ih =>
    rw [displayedAfter, ih]
    rcases lt_trichotomy d t with h | h | h
    · rw [goToPage_lt h]
      simp only
      have hs : Int.sign (t - d) = 1 := Int.sign_eq_one_of_pos (by omega)
      rw [hs]
      rcases eq_or_lt_of_le (show d + 1 ≤ t by omega) with h' | h'
      · have : t - (d + 1) = 0 := by omega
        rw [this]
        simp only [Int.sign_zero, zero_mul, add_zero, one_mul, neg_mul]
        omega
      · have hs' : Int.sign (t - (d + 1)) = 1 := Int.sign_eq_one_of_pos (by omega)
        rw [hs']
        omega
    · subst h
      simp [goToPage_eq]
    · rw [goToPage_gt h]
      simp only
      have hs : Int.sign (t - d) = -1 := Int.sign_eq_neg_one_of_neg (by omega)
      rw [hs]
      rcases eq_or_lt_of_le (show t ≤ d - 1 by omega) with h' | h'
      · have : t - (d - 1) = 0 := by omega
        rw [this]
        simp only [Int.sign_zero, zero_mul, add_zero, one_mul, neg_mul]
        omega
      · have hs' : Int.sign (t - (d - 1)) = -1 := Int.sign_eq_neg_one_of_neg (by omega)
        rw [hs']
        omega

lemma displayedAfter_of_le {t d : Int} (h : d ≤ t) (k : Nat) :
    displayedAfter t k d = d + ((min k (Int.natAbs (t - d)) : Nat) : Int) := by
  rw [displayedAfter_closed]
  rcases eq_or_lt_of_le h with h' | h'
  · subst h'
    simp
  · rw [Int.sign_eq_one_of_pos (by omega)]
    omega

lemma displayedAfter_of_ge {t d : Int} (h : t ≤ d) (k : Nat) :
    displayedAfter t k d = d - ((min k (Int.natAbs (t - d)) : Nat) : Int) := by
  rw [displayedAfter_closed]
  rcases eq_or_lt_of_le h with h' | h'
  · subst h'
    simp
  · rw [Int.sign_eq_neg_one_of_neg (by omega)]
    omega

lemma goToPage_step (t d : Int) (h : d ≠ t) :
    Int.natAbs ((goToPage t d).delayedPage - d) = 1 ∧
      Int.natAbs (t - (goToPage t d).delayedPage) + 1 = Int.natAbs (t - d) := by
  rcases lt_or_gt_of_ne h with h' | h'
  · rw [goToPage_lt h']
    simp only
    omega
  · rw [goToPage_gt h']
    simp only
    omega

/-! ## The claims -/

/-- C1: with the captured target `t` fixed and `delayedPage` starting at `d0`, a run of the
updater of `goToPage` on `d ≠ t` changes `d` by exactly 1 and brings it 1 closer to `t`, a
run on `d = t` returns `t`; after `k` runs `delayedPage = d0 + sign (t - d0) * min k |t - d0|`;
the trajectory is monotone, changes by at most 1 per run, stays between `d0` and `t` (hence
in `[0, len]` when both are), and equals `t` exactly from run `|t - d0|` on. -/
theorem scheduler_convergence (t d0 : Int) (k : Nat) :
    (∀ d : Int, d ≠ t →
      Int.natAbs ((goToPage t d).delayedPage - d) = 1 ∧
        Int.natAbs (t - (goToPage t d).delayedPage) + 1 = Int.natAbs (t - d)) ∧
    (goToPage t t).delayedPage = t ∧
    displayedAfter t k d0
      = d0 + Int.sign (t - d0) * ((min k (Int.natAbs (t - d0)) : Nat) : Int) ∧
    (d0 ≤ t → displayedAfter t k d0 ≤ displayedAfter t (k + 1) d0) ∧
    (t ≤ d0 → displayedAfter t (k + 1) d0 ≤ displayedAfter t k d0) ∧
    Int.natAbs (displayedAfter t (k + 1) d0 - displayedAfter t k d0) ≤ 1 ∧
    (min d0 t ≤ displayedAfter t k d0 ∧ displayedAfter t k d0 ≤ max d0 t) ∧
    (∀ len : Nat, 0 ≤ d0 → d0 ≤ len → 0 ≤ t → t ≤ len →
      0 ≤ displayedAfter t k d0 ∧ displayedAfter t k d0 ≤ len) ∧
    (displayedAfter t k d0 = t ↔ Int.natAbs (t - d0) ≤ k) := by
  refine ⟨goToPage_step t, by simp [goToPage_eq], displayedAfter_closed t k d0, ?_, ?_, ?_,
    ?_, ?_, ?_⟩
  · intro h
    rw [displayedAfter_of_le h, displayedAfter_of_le h]
    omega
  · intro h
    rw [displayedAfter_of_ge h, displayedAfter_of_ge h]
    omega
  · rcases le_total d0 t with h | h
    · rw [displayedAfter_of_le h, displayedAfter_of_le h]
      omega
    · rw [displayedAfter_of_ge h, displayedAfter_of_ge h]
      omega
  · rcases le_total d0 t with h | h
    · rw [displayedAfter_of_le h]
      omega
    · rw [displayedAfter_of_ge h]
      omega
  · intro len h0 h1 h2 h3
    rcases le_total d0 t with h | h
    · rw [displayedAfter_of_le h]
      omega
    · rw [displayedAfter_of_ge h]
      omega
  · rcases le_total d0 t with h | h
    · rw [displayedAfter_of_le h]
      omega
    · rw [displayedAfter_of_ge h]
      omega

/-- Witness for C1: for the target jump 0 → 10 the displayed index is 1, 2, …, 10 after
runs 1, …, 10, is not 10 before run 10, and is 10 after run 10. -/
theorem scheduler_convergence_witness :
    (List.range 11).map (fun k => displayedAfter 10 k 0)
      = [0, 1, 2, 3, 4, 5, 6, 7, 8, 9, 10] ∧
    (∀ k : Fin 10, displayedAfter 10 k.val 0 ≠ 10) ∧
    displayedAfter 10 10 0 = 10 :=
  ⟨by decide, by decide, (scheduler_convergence 10 0 10).2.2.2.2.2.2.2.2.mpr (by decide)⟩

lemma convergence_closed (t : Int) (n : Nat) :
    ∀ (d : Int) (w fuel : Nat), Int.natAbs (t - d) = n → n < fuel →
      convergence t fuel w d = some ((List.range n).map (fun j =>
        (⟨if j = 0 then w else if n - j + 1 > 2 then 50 else 150,
          displayedAfter t j d, displayedAfter t (j + 1) d⟩ : Step))) := by
  induction n with
  | zero =>
    intro d w fuel hd hf
    have htd : t = d := by omega
    subst htd
    obtain ⟨f, rfl⟩ : ∃ f, fuel = f + 1 := ⟨fuel - 1, by omega⟩
    simp [convergence, goToPage_eq]
  | succ n ih =>
    intro d w fuel hd hf
    obtain ⟨f, rfl⟩ : ∃ f, fuel = f + 1 := ⟨fuel - 1, by omega⟩
    have hne : d ≠ t := by
      intro h
      subst h
      simp at hd
    have hstep := (goToPage_step t d hne).2
    have hdelay : (goToPage t d).delay = some (if n + 1 > 2 then 50 else 150) := by
      rcases lt_or_gt_of_ne hne with h' | h'
      · rw [goToPage_lt h', hd]
      · rw [goToPage_gt h', hd]
    rw [convergence, hdelay]
    simp only
    rw [ih (goToPage t d).delayedPage _ f (by omega) (by omega)]
    rw [List.range_succ_eq_map]
    simp only [Option.map_some', List.map_cons, List.map_map, displayedAfter, if_true]
    congr 2
    apply List.map_congr_left
    intro j hj
    have hj' : j < n := List.mem_range.mp hj
    simp only [Function.comp, displayedAfter, Nat.succ_eq_add_one]
    by_cases hj0 : j = 0
    · subst hj0
      simp
    · have : n + 1 - (j + 1) = n - j := by omega
      simp [hj0, this]

/-- C3 as amended: the steps of the convergence from `d0` toward `t` are the `|t - d0|`
changes of `delayedPage` of C1; the first is made by the call of `goToPage` in the effect
body, with no timer before it; the timer before each later step was registered by the step
before it, whose distance to the target was one more: it lasts 50 when the distance
remaining at the step, plus 1, exceeds 2, and 150 otherwise. -/
theorem delay_rule_amended (t d0 : Int) :
    convergence t (Int.natAbs (t - d0) + 1) 0 d0
      = some ((List.range (Int.natAbs (t - d0))).map (fun j =>
          (⟨if j = 0 then 0 else if Int.natAbs (t - d0) - j + 1 > 2 then 50 else 150,
            displayedAfter t j d0, displayedAfter t (j + 1) d0⟩ : Step))) ∧
    ∀ j : Nat, j < Int.natAbs (t - d0) →
      Int.natAbs (t - displayedAfter t j d0) = Int.natAbs (t - d0) - j := by
  refine ⟨convergence_closed t _ d0 0 _ rfl (by omega), ?_⟩
  intro j hj
  rcases le_total d0 t with h | h
  · rw [displayedAfter_of_le h]
    omega
  · rw [displayedAfter_of_ge h]
    omega

/-- Witness for C3 as amended: for the target jump 0 → 10 the step at distance 10 waits
for no timer, the steps at distances 9, …, 2 follow a delay of 50 and the step at distance
1 follows a delay of 150. -/
theorem delay_rule_amended_witness :
    convergence 10 11 0 0 = some
      [⟨0, 0, 1⟩, ⟨50, 1, 2⟩, ⟨50, 2, 3⟩, ⟨50, 3, 4⟩, ⟨50, 4, 5⟩, ⟨50, 5, 6⟩, ⟨50, 6, 7⟩,
       ⟨50, 7, 8⟩, ⟨50, 8, 9⟩, ⟨150, 9, 10⟩] :=
  (delay_rule_amended 10 0).1.trans (by decide)

/-- Counterexample to C3 as stated: in the convergence 0 → 10 it is not the case that
every step follows a delay of 50 when the distance remaining at that step exceeds 2 and of
150 otherwise: the step 0 → 1 follows no delay, and the step 8 → 9, taken at distance 2,
follows a delay of 50. -/
theorem delay_rule_counterexample :
    ∃ steps, convergence 10 11 0 0 = some steps ∧
      ⟨0, 0, 1⟩ ∈ steps ∧ ⟨50, 8, 9⟩ ∈ steps ∧
      ¬ ∀ s ∈ steps, s.waited = (if Int.natAbs (10 - s.before) > 2 then 50 else 150) := by
  refine ⟨_, rfl, by decide, by decide, by decide⟩

/-! ### Lemmas on the scheduler state machine -/

lemma runGoToPage_page (e : Nat) (p : Int) (s : BookState) :
    (runGoToPage e p s).page = s.page := by
  unfold runGoToPage
  split <;> rfl

lemma runGoToPage_rendered (e : Nat) (p : Int) (s : BookState) :
    (runGoToPage e p s).rendered = s.rendered := by
  unfold runGoToPage
  split <;> rfl

lemma runGoToPage_delayedPage (e : Nat) (p : Int) (s : BookState) :
    (runGoToPage e p s).delayedPage = (goToPage p s.delayedPage).delayedPage := by
  unfold runGoToPage
  split <;> rfl

lemma inv_runGoToPage (s : BookState) (e : Nat) (p : Int) (h : s.timers = [])
    (he : e = s.effect) (hp : p = s.rendered) : Inv (runGoToPage e p s) := by
  subst he hp
  unfold runGoToPage
  split
  · intro tm htm
    simp [h] at htm
  · intro tm htm
    simp [h] at htm
    subst htm
    simp

lemma filter_timers_of_inv {s : BookState} (h : Inv s) {tm : Timer} (htm : tm ∈ s.timers) :
    s.timers.filter (fun x => x.id ≠ tm.id) = [] := by
  rw [List.filter_eq_nil_iff]
  intro x hx
  have h1 := (h x hx).2.2.1
  have h2 := (h tm htm).2.2.1
  rw [h1] at h2
  simp at h2
  simp [h2]

lemma clearTimeout_timers {s : BookState} (h : Inv s) :
    (clearTimeout (s.timeout s.effect) s).timers = [] := by
  cases hto : s.timeout s.effect with
  | none =>
    simp only [clearTimeout]
    rw [List.eq_nil_iff_forall_not_mem]
    intro tm htm
    have := (h tm htm).2.2.1
    rw [hto] at this
    simp at this
  | some i =>
    simp only [clearTimeout]
    rw [List.filter_eq_nil_iff]
    intro x hx
    have h1 := (h x hx).2.2.1
    rw [hto] at h1
    simp at h1
    simp [h1]

lemma clearTimeout_fields (id : Option Nat) (s : BookState) :
    (clearTimeout id s).page = s.page ∧ (clearTimeout id s).delayedPage = s.delayedPage ∧
      (clearTimeout id s).nextId = s.nextId := by
  cases id <;> simp [clearTimeout]

lemma commitEffect_of_ne {s : BookState} (hc : s.page ≠ s.rendered) :
    commitEffect s =
      runGoToPage (s.effect + 1) s.page
        { clearTimeout (s.timeout s.effect) s with
          rendered := s.page
          effect := s.effect + 1
          timeout := Function.update (clearTimeout (s.timeout s.effect) s).timeout
            (s.effect + 1) none } := by
  simp [commitEffect, hc]

lemma commitEffect_page (s : BookState) : (commitEffect s).page = s.page := by
  by_cases hc : s.page = s.rendered
  · simp [commitEffect, hc]
  · rw [commitEffect_of_ne hc, runGoToPage_page]
    exact (clearTimeout_fields _ _).1

lemma commitEffect_rendered (s : BookState) : (commitEffect s).rendered = s.page := by
  by_cases hc : s.page = s.rendered
  · simp [commitEffect, hc]
  · rw [commitEffect_of_ne hc, runGoToPage_rendered]

lemma commitEffect_delayedPage {s : BookState} (hc : s.page ≠ s.rendered) :
    (commitEffect s).delayedPage = (goToPage s.page s.delayedPage).delayedPage := by
  rw [commitEffect_of_ne hc, runGoToPage_delayedPage]
  simp [(clearTimeout_fields _ _).2.1]

lemma inv_commitEffect {s : BookState} (h : Inv s) : Inv (commitEffect s) := by
  by_cases hc : s.page = s.rendered
  · simpa [commitEffect, hc] using h
  · rw [commitEffect_of_ne hc]
    exact inv_runGoToPage _ _ _ (clearTimeout_timers h) rfl rfl

lemma inv_setPage {s : BookState} (h : Inv s) (c : Int) : Inv (setPage c s) := by
  intro tm htm
  exact h tm htm

lemma fire_cases {s : BookState} (h : Inv s) (id : Nat) :
    fire id s = s ∨
      (∃ tm ∈ s.timers, tm.id = id) ∧
        fire id s = runGoToPage s.effect s.rendered { s with timers := [] } := by
  unfold fire
  cases hf : s.timers.find? (fun tm => tm.id = id) with
  | none => exact Or.inl rfl
  | some tm =>
    right
    have hmem : tm ∈ s.timers := List.mem_of_find?_eq_some hf
    have hid : tm.id = id := by simpa using List.find?_some hf
    refine ⟨⟨tm, hmem, hid⟩, ?_⟩
    have hfil := filter_timers_of_inv h hmem
    rw [hid] at hfil
    simp only [hfil, (h tm hmem).1, (h tm hmem).2.1]

lemma inv_fire {s : BookState} (h : Inv s) (id : Nat) : Inv (fire id s) := by
  rcases fire_cases h id with h1 | ⟨_, h1⟩
  · rw [h1]
    exact h
  · rw [h1]
    exact inv_runGoToPage { s with timers := [] } _ _ rfl rfl rfl

lemma fire_page {s : BookState} (h : Inv s) (id : Nat) : (fire id s).page = s.page := by
  rcases fire_cases h id with h1 | ⟨_, h1⟩
  · rw [h1]
  · rw [h1, runGoToPage_page]

lemma fire_rendered {s : BookState} (h : Inv s) (id : Nat) :
    (fire id s).rendered = s.rendered := by
  rcases fire_cases h id with h1 | ⟨_, h1⟩
  · rw [h1]
  · rw [h1, runGoToPage_rendered]

lemma fire_delayedPage {s : BookState} (h : Inv s) (id : Nat) :
    (fire id s).delayedPage = s.delayedPage ∨
      (fire id s).delayedPage = (goToPage s.rendered s.delayedPage).delayedPage := by
  rcases fire_cases h id with h1 | ⟨_, h1⟩
  · rw [h1]
    exact Or.inl rfl
  · rw [h1, runGoToPage_delayedPage]
    exact Or.inr rfl

lemma inv_initial : Inv initial := by
  intro tm htm
  simp [initial, runGoToPage, goToPage] at htm

lemma inv_apply {s : BookState} (h : Inv s) (e : Event) : Inv (e.apply s) := by
  cases e with
  | select c => exact inv_setPage h c
  | commit => exact inv_commitEffect h
  | timer id => exact inv_fire h id

lemma inv_run (es : List Event) : ∀ s : BookState, Inv s → Inv (run es s) := by
  induction es with
  | nil => intro s h; exact h
  | cons e es ih => intro s h; exact ih _ (inv_apply h e)

lemma runGoToPage_timers (e : Nat) (p : Int) (s : BookState) :
    ∀ tm ∈ (runGoToPage e p s).timers, tm ∈ s.timers ∨ tm.id = s.nextId := by
  unfold runGoToPage
  split
  · intro tm htm
    exact Or.inl htm
  · intro tm htm
    simp at htm
    rcases htm with h | h
    · exact Or.inl h
    · subst h
      exact Or.inr rfl

lemma commitEffect_timers {s : BookState} (h : Inv s) (hc : s.page ≠ s.rendered) :
    ∀ tm ∈ (commitEffect s).timers, tm.id = s.nextId := by
  rw [commitEffect_of_ne hc]
  intro tm htm
  rcases runGoToPage_timers _ _ _ tm htm with h1 | h1
  · simp only at h1
    rw [clearTimeout_timers h] at h1
    simp at h1
  · simpa [(clearTimeout_fields _ _).2.2] using h1

lemma displayedAfter_succ (t : Int) (k : Nat) (d : Int) :
    displayedAfter t (k + 1) d = (goToPage t (displayedAfter t k d)).delayedPage := by
  induction k generalizing d with
  | zero => rfl
  | succ k ih =>
    rw [displayedAfter, ih]
    rfl

lemma run_timers_only (ids : List Nat) :
    ∀ s : BookState, Inv s →
      (run (ids.map Event.timer) s).page = s.page ∧
      (run (ids.map Event.timer) s).rendered = s.rendered ∧
        ∃ j, j ≤ ids.length ∧
          (run (ids.map Event.timer) s).delayedPage
            = displayedAfter s.rendered j s.delayedPage := by
  induction ids with
  | nil =>
    intro s _
    exact ⟨rfl, rfl, 0, le_refl _, rfl⟩
  | cons id ids ih =>
    intro s h
    obtain ⟨hp, hr, j, hj, hd⟩ := ih (fire id s) (inv_fire h id)
    rw [fire_page h id] at hp
    rw [fire_rendered h id] at hr hd
    refine ⟨hp, hr, ?_⟩
    simp only [List.map_cons, run, Event.apply, List.length_cons]
    rcases fire_delayedPage h id with h1 | h1
    · rw [h1] at hd
      exact ⟨j, by omega, hd⟩
    · rw [h1] at hd
      exact ⟨j + 1, by omega, hd⟩

/-- What the cleanup achieves: in any state the scheduler can reach in which the target
`page` differs from the one the installed effect captured, the commit that re-runs the
effect leaves only timers that carry the new target, makes the ids of the timers pending
before it dead, applies the step of `goToPage` toward the new target, and timer firings
after it keep `delayedPage` on the trajectory toward the new target. -/
lemma cancellation_after_commit (history : List Event)
    (h : (run history initial).page ≠ (run history initial).rendered) :
    (∀ tm ∈ (commitEffect (run history initial)).timers,
      tm.page = (run history initial).page) ∧
    (∀ tm ∈ (run history initial).timers,
      fire tm.id (commitEffect (run history initial)) = commitEffect (run history initial)) ∧
    (commitEffect (run history initial)).delayedPage
      = (goToPage (run history initial).page (run history initial).delayedPage).delayedPage ∧
    ∀ ids : List Nat,
      ∃ j, 1 ≤ j ∧ j ≤ ids.length + 1 ∧
        (run (ids.map Event.timer) (commitEffect (run history initial))).delayedPage
          = displayedAfter (run history initial).page j (run history initial).delayedPage := by
  have hinv : Inv (run history initial) := inv_run history initial inv_initial
  have hinv' : Inv (commitEffect (run history initial)) := inv_commitEffect hinv
  have hren := commitEffect_rendered (run history initial)
  refine ⟨?_, ?_, commitEffect_delayedPage h, ?_⟩
  · intro tm htm
    rw [(hinv' tm htm).2.1, hren]
  · intro tm htm
    have hlt := (hinv tm htm).2.2.2
    have hnone : (commitEffect (run history initial)).timers.find? (fun x => x.id = tm.id)
        = none := by
      rw [List.find?_eq_none]
      intro x hx
      have := commitEffect_timers hinv h x hx
      simp only [decide_eq_true_eq]
      omega
    simp only [fire, hnone]
  · intro ids
    obtain ⟨_, _, j, hj, hd⟩ := run_timers_only ids _ hinv'
    rw [hren, commitEffect_delayedPage h] at hd
    exact ⟨j + 1, by omega, by omega, hd⟩

/-- C2 at the failing input: commands and firings leave target 10, displayed 5 and timer 4
pending toward 10, the effect installed for 10; the command 3 then writes the atom, and
timer 4 fires before the commit that would clear it: displayed becomes 6, a step toward the
superseded target 10 and away from 3, and a further timer toward 10 is registered; only the
commit that follows clears that timer and steps toward 3. -/
theorem scheduler_cancellation_failing_input :
    (run [.select 10, .commit, .timer 0, .timer 1, .timer 2, .timer 3] initial).page = 10 ∧
    (run [.select 10, .commit, .timer 0, .timer 1, .timer 2, .timer 3] initial).delayedPage
      = 5 ∧
    (run [.select 10, .commit, .timer 0, .timer 1, .timer 2, .timer 3] initial).timers
      = [⟨4, 1, 10, 50⟩] ∧
    (run [.select 10, .commit, .timer 0, .timer 1, .timer 2, .timer 3, .select 3]
      initial).page = 3 ∧
    (run [.select 10, .commit, .timer 0, .timer 1, .timer 2, .timer 3, .select 3]
      initial).delayedPage = 5 ∧
    (run [.select 10, .commit, .timer 0, .timer 1, .timer 2, .timer 3, .select 3, .timer 4]
      initial).page = 3 ∧
    (run [.select 10, .commit, .timer 0, .timer 1, .timer 2, .timer 3, .select 3, .timer 4]
      initial).delayedPage = 6 ∧
    (run [.select 10, .commit, .timer 0, .timer 1, .timer 2, .timer 3, .select 3, .timer 4]
      initial).timers = [⟨5, 1, 10, 50⟩] ∧
    (run [.select 10, .commit, .timer 0, .timer 1, .timer 2, .timer 3, .select 3, .timer 4,
      .commit] initial).delayedPage = 5 ∧
    (run [.select 10, .commit, .timer 0, .timer 1, .timer 2, .timer 3, .select 3, .timer 4,
      .commit] initial).timers = [⟨6, 2, 3, 50⟩] := by
  decide

lemma goToPage_range (len : Nat) (t d : Int) (h0 : 0 ≤ d) (h1 : d ≤ len) (h2 : 0 ≤ t)
    (h3 : t ≤ len) :
    0 ≤ (goToPage t d).delayedPage ∧ (goToPage t d).delayedPage ≤ len := by
  rcases lt_trichotomy d t with h | h | h
  · rw [goToPage_lt h]
    simp only
    omega
  · subst h
    rw [goToPage_eq]
    exact ⟨h0, h1⟩
  · rw [goToPage_gt h]
    simp only
    omega

lemma range_run (len : Nat) (es : List Event) :
    ∀ s : BookState, Inv s → (0 ≤ s.page ∧ s.page ≤ len) →
      (0 ≤ s.rendered ∧ s.rendered ≤ len) → (0 ≤ s.delayedPage ∧ s.delayedPage ≤ len) →
      (∀ c : Int, Event.select c ∈ es → 0 ≤ c ∧ c ≤ len) →
      (0 ≤ (run es s).page ∧ (run es s).page ≤ len) ∧
        (0 ≤ (run es s).delayedPage ∧ (run es s).delayedPage ≤ len) := by
  induction es with
  | nil =>
    intro s _ hp _ hd _
    exact ⟨hp, hd⟩
  | cons e es ih =>
    intro s hinv hp hr hd hc
    have hes : ∀ c : Int, Event.select c ∈ es → 0 ≤ c ∧ c ≤ len :=
      fun c hm => hc c (List.mem_cons_of_mem _ hm)
    cases e with
    | select c =>
      have hcr := hc c (List.mem_cons_self _ _)
      simp only [run, Event.apply]
      exact ih _ (inv_setPage hinv c) hcr hr hd hes
    | commit =>
      simp only [run, Event.apply]
      refine ih _ (inv_commitEffect hinv) ?_ ?_ ?_ hes
      · rw [commitEffect_page]
        exact hp
      · rw [commitEffect_rendered]
        exact hp
      · by_cases hcp : s.page = s.rendered
        · have : commitEffect s = s := by simp [commitEffect, hcp]
          rw [this]
          exact hd
        · rw [commitEffect_delayedPage hcp]
          exact goToPage_range len _ _ hd.1 hd.2 hp.1 hp.2
    | timer id =>
      simp only [run, Event.apply]
      refine ih _ (inv_fire hinv id) ?_ ?_ ?_ hes
      · rw [fire_page hinv id]
        exact hp
      · rw [fire_rendered hinv id]
        exact hr
      · rcases fire_delayedPage hinv id with h | h
        · rw [h]
          exact hd
        · rw [h]
          exact goToPage_range len _ _ hd.1 hd.2 hr.1 hr.2

/-- C4 as amended: the store applies no check, `setPage c` makes the target `c` for every
integer `c`; every command the interface issues for a catalog of `len` entries lies in
`[0, len]`; and as long as all commands lie in `[0, len]`, target and displayed index stay
in `[0, len]` in every state the scheduler reaches. -/
theorem selection_boundary_amended (len : Nat) :
    (∀ (s : BookState) (c : Int), (setPage c s).page = c) ∧
    (∀ c ∈ uiCommands len, 0 ≤ c ∧ c ≤ len) ∧
    (∀ history : List Event,
      (∀ c : Int, Event.select c ∈ history → 0 ≤ c ∧ c ≤ len) →
        (0 ≤ (run history initial).page ∧ (run history initial).page ≤ len) ∧
        (0 ≤ (run history initial).delayedPage ∧ (run history initial).delayedPage ≤ len)) := by
  refine ⟨fun s c => rfl, ?_, ?_⟩
  · intro c hc
    simp only [uiCommands, navButton, backCoverButton, pageClick, List.mem_append,
      List.mem_map, List.mem_range, List.mem_singleton, if_true, Bool.false_eq_true,
      if_false] at hc
    rcases hc with ((⟨n, hn, rfl⟩ | rfl) | ⟨n, hn, rfl⟩) | ⟨n, hn, rfl⟩ <;> omega
  · intro history hc
    have h0 : initial.page = 0 ∧ initial.rendered = 0 ∧ initial.delayedPage = 0 := by
      decide
    refine range_run len history initial inv_initial ?_ ?_ ?_ hc
    · rw [h0.1]
      omega
    · rw [h0.2.1]
      omega
    · rw [h0.2.2]
      omega

/-- Witness for C4 as amended, for the repository's catalog of 9 entries: the commands of
the interface are 0, …, 9, and after the back-cover command, the commit and two timer
firings target and displayed index are within `[0, 9]`. -/
theorem selection_boundary_amended_witness :
    pages.map List.length = some 9 ∧
    (∀ c ∈ uiCommands 9, 0 ≤ c ∧ c ≤ ((9 : Nat) : Int)) ∧
    ((0 ≤ (run [.select 9, .commit, .timer 0, .timer 1] initial).page ∧
      (run [.select 9, .commit, .timer 0, .timer 1] initial).page ≤ ((9 : Nat) : Int)) ∧
     (0 ≤ (run [.select 9, .commit, .timer 0, .timer 1] initial).delayedPage ∧
      (run [.select 9, .commit, .timer 0, .timer 1] initial).delayedPage
        ≤ ((9 : Nat) : Int))) ∧
    (run [.select 9, .commit, .timer 0, .timer 1] initial).delayedPage = 3 :=
  ⟨by decide, (selection_boundary_amended 9).2.1,
    (selection_boundary_amended 9).2.2 [.select 9, .commit, .timer 0, .timer 1]
      (by
        intro c hc
        simp at hc
        subst hc
        decide),
    by decide⟩

/-- Counterexample to C4 as stated: the repository's catalog has 9 entries, yet the
command 10 makes the target 10, outside `[0, 9]`, and the displayed index then converges
to 10. -/
theorem selection_boundary_counterexample :
    pages.map List.length = some 9 ∧
    (setPage 10 initial).page = 10 ∧
    ¬ (0 ≤ (setPage 10 initial).page ∧ (setPage 10 initial).page ≤ 9) ∧
    (run (Event.select 10 :: Event.commit :: (List.range 9).map Event.timer)
      initial).delayedPage = 10 := by
  decide

/-! ### Lemmas on the catalog loop -/

lemma pagesLoop_closed (pictures : List String) (r : Nat) :
    ∀ (j fuel : Nat) (acc : List PageDescriptor),
      j + r = (pictures.length - 1) / 2 → r < fuel →
      pagesLoop pictures fuel (2 * j + 1) acc
        = some (acc ++ (List.range r).map (fun k =>
            (⟨pictures[2 * (j + k) + 1]?, pictures[2 * (j + k) + 2]?⟩ : PageDescriptor))) := by
  induction r with
  | zero =>
    intro j fuel acc hj hf
    obtain ⟨f, rfl⟩ : ∃ f, fuel = f + 1 := ⟨fuel - 1, by omega⟩
    have hcond : ¬ (((2 * j + 1 : Nat) : Int) < (pictures.length : Int) - 1) := by omega
    rw [pagesLoop, if_neg hcond]
    simp
  | succ r ih =>
    intro j fuel acc hj hf
    obtain ⟨f, rfl⟩ : ∃ f, fuel = f + 1 := ⟨fuel - 1, by omega⟩
    have hcond : (((2 * j + 1 : Nat) : Int) < (pictures.length : Int) - 1) := by omega
    have hm1 : (2 * j + 1) % pictures.length = 2 * j + 1 := Nat.mod_eq_of_lt (by omega)
    have hm2 : (2 * j + 1 + 1) % pictures.length = 2 * j + 2 := Nat.mod_eq_of_lt (by omega)
    rw [pagesLoop, if_pos hcond, hm1, hm2]
    have hi : 2 * j + 1 + 2 = 2 * (j + 1) + 1 := by ring
    rw [hi, ih (j + 1) f _ (by omega) (by omega), List.range_succ_eq_map]
    simp only [List.append_assoc, List.singleton_append, List.map_cons, List.map_map,
      Nat.add_zero]
    congr 3
    apply List.map_congr_left
    intro k _
    simp only [Function.comp, Nat.succ_eq_add_one]
    have : j + 1 + k = j + (k + 1) := by ring
    rw [this]

/-- C5: for a list of `M ≥ 1` images the catalog is the entry `{cover, images[0]}`, then
`{images[i], images[i+1]}` for `i = 2k+1`, `k = 0, 1, …` below `(M-1)/2`, which are the odd
`i < M-1` in increasing order, every read being in range, then `{images[M-1], back-cover}`;
it has `2 + (M-1)/2` entries, the first with front the cover and the last with back the
back cover. -/
theorem catalog_builder (pictures : List String) (hM : 1 ≤ pictures.length) :
    buildPages pictures
      = some ([(⟨some "book-cover", pictures[0]?⟩ : PageDescriptor)] ++
          (List.range ((pictures.length - 1) / 2)).map (fun k =>
            (⟨pictures[2 * k + 1]?, pictures[2 * k + 2]?⟩ : PageDescriptor)) ++
          [⟨pictures[pictures.length - 1]?, some "book-back"⟩]) ∧
    (∀ k, k < (pictures.length - 1) / 2 → 2 * k + 2 < pictures.length) ∧
    (∀ i : Nat, (i % 2 = 1 ∧ i < pictures.length - 1) ↔
      ∃ k, k < (pictures.length - 1) / 2 ∧ i = 2 * k + 1) ∧
    (∃ x y, pictures[0]? = some x ∧ pictures[pictures.length - 1]? = some y) ∧
    ∃ catalog, buildPages pictures = some catalog ∧
      catalog.length = 2 + (pictures.length - 1) / 2 ∧
      catalog.head?.map PageDescriptor.front = some (some "book-cover") ∧
      catalog.getLast?.map PageDescriptor.back = some (some "book-back") := by
  have hb : buildPages pictures
      = some ([(⟨some "book-cover", pictures[0]?⟩ : PageDescriptor)] ++
          (List.range ((pictures.length - 1) / 2)).map (fun k =>
            (⟨pictures[2 * k + 1]?, pictures[2 * k + 2]?⟩ : PageDescriptor)) ++
          [⟨pictures[pictures.length - 1]?, some "book-back"⟩]) := by
    have := pagesLoop_closed pictures ((pictures.length - 1) / 2) 0 (pictures.length + 1)
      [⟨some "book-cover", pictures[0]?⟩] (by omega) (by omega)
    simp only [Nat.mul_zero, Nat.zero_add] at this
    rw [buildPages, this]
    rfl
  refine ⟨hb, fun k hk => by omega, ?_, ?_, _, hb, ?_, ?_, ?_⟩
  · intro i
    constructor
    · rintro ⟨h1, h2⟩
      exact ⟨i / 2, by omega, by omega⟩
    · rintro ⟨k, hk, rfl⟩
      omega
  · exact ⟨pictures[0], pictures[pictures.length - 1],
      List.getElem?_eq_getElem _, List.getElem?_eq_getElem _⟩
  · simp
    omega
  · simp
  · rw [List.getLast?_append]
    simp

/-- Witness for C5: the repository's 16 pictures give 9 entries, cover first, pictures
paired as (1,2), (3,4), …, (13,14), and the last picture with the back cover. -/
theorem catalog_builder_witness :
    pages = some
      [⟨some "book-cover", some "DSC00680"⟩, ⟨some "DSC00933", some "DSC00966"⟩,
       ⟨some "DSC00983", some "DSC01011"⟩, ⟨some "DSC01040", some "DSC01064"⟩,
       ⟨some "DSC01071", some "DSC01103"⟩, ⟨some "DSC01145", some "DSC01420"⟩,
       ⟨some "DSC01461", some "DSC01489"⟩, ⟨some "DSC02031", some "DSC02064"⟩,
       ⟨some "DSC02069", some "book-back"⟩] ∧
    pages.map List.length = some 9 :=
  ⟨(catalog_builder pictures (by decide)).1.trans (by decide), by decide⟩

/-- C6 as amended: for the five images `a, b, c, d, e` the catalog has four entries, the
cover with `a`, `b` with `c`, `d` with `e`, and `e` with the back cover. -/
theorem catalog_example_amended (a b c d e : String) :
    buildPages [a, b, c, d, e]
      = some [⟨some "book-cover", some a⟩, ⟨some b, some c⟩, ⟨some d, some e⟩,
          ⟨some e, some "book-back"⟩] := by
  rfl

/-- Counterexample to C6 as stated: for the images `a, b, c, d, e` the catalog is not the
three entries cover with `a`, `b` with `c`, `d` with the back cover. -/
theorem catalog_example_counterexample :
    buildPages ["a", "b", "c", "d", "e"]
      ≠ some [⟨some "book-cover", some "a"⟩, ⟨some "b", some "c"⟩,
          ⟨some "d", some "book-back"⟩] := by
  decide

/-! ### Lemmas on the skinning attributes -/

lemma skinWeight_eq_fract {W x : ℚ} (hW : 0 < W) (hx : 0 ≤ x) :
    skinWeight W x = Int.fract (x / W) := by
  have hq : 0 ≤ x / W := div_nonneg hx hW.le
  unfold skinWeight jsMod
  rw [if_pos hq, Int.fract]
  field_simp

lemma skinIndex_eq_floor {W x : ℚ} (hW : 0 < W) (hx : 0 ≤ x) :
    skinIndex W x = ⌊x / W⌋ := by
  have hq : 0 ≤ x / W := div_nonneg hx hW.le
  unfold skinIndex
  exact max_eq_right (Int.floor_nonneg.mpr hq)

lemma floor_le_segments {N : Nat} {W x : ℚ} (hW : 0 < W) (hxN : x ≤ N * W) :
    ⌊x / W⌋ ≤ (N : Int) := by
  have h1 : x / W ≤ (N : ℚ) := by
    rw [div_le_iff₀ hW]
    exact hxN
  have h2 : ⌊x / W⌋ ≤ ⌊((N : Int) : ℚ)⌋ := Int.floor_le_floor (by simpa using h1)
  simpa using h2

lemma far_edge_of_floor_eq {N : Nat} {W x : ℚ} (hW : 0 < W) (hxN : x ≤ N * W)
    (h : ⌊x / W⌋ = (N : Int)) : x = N * W ∧ Int.fract (x / W) = 0 := by
  have h1 : ((⌊x / W⌋ : Int) : ℚ) ≤ x / W := Int.floor_le _
  rw [h] at h1
  have h2 : (N : ℚ) * W ≤ x := by
    have := (le_div_iff₀ hW).mp (by simpa using h1)
    exact this
  have hx : x = N * W := le_antisymm hxN h2
  refine ⟨hx, ?_⟩
  rw [hx, mul_div_assoc, div_self hW.ne', mul_one]
  simp

/-- C7: in exact arithmetic, for segment width `W > 0` and a vertex at offset `x ≥ 0` (in
particular for `0 ≤ x ≤ N * W`), the indices pushed are `⌊x/W⌋`, `⌊x/W⌋ + 1`, 0, 0 and the
weights `1 - f`, `f`, 0, 0 with `f = frac (x/W) = (x mod W) / W`, where `x mod W` is
`x - W * ⌊x/W⌋ ∈ [0, W)`; the two weights add up to 1, as do all four, and each lies in
`[0, 1]`. -/
theorem skin_weights (W x : ℚ) (hW : 0 < W) (hx : 0 ≤ x) :
    skinIndexes W x = [⌊x / W⌋, ⌊x / W⌋ + 1, 0, 0] ∧
    skinWeights W x = [1 - Int.fract (x / W), Int.fract (x / W), 0, 0] ∧
    skinWeight W x = (x - W * (⌊x / W⌋ : ℚ)) / W ∧
    (0 ≤ x - W * (⌊x / W⌋ : ℚ) ∧ x - W * (⌊x / W⌋ : ℚ) < W) ∧
    (1 - skinWeight W x) + skinWeight W x = 1 ∧
    (skinWeights W x).sum = 1 ∧
    (0 ≤ skinWeight W x ∧ skinWeight W x ≤ 1) ∧
    (0 ≤ 1 - skinWeight W x ∧ 1 - skinWeight W x ≤ 1) := by
  have hf := skinWeight_eq_fract hW hx
  have hi := skinIndex_eq_floor hW hx
  have h0 : 0 ≤ Int.fract (x / W) := Int.fract_nonneg _
  have h1 : Int.fract (x / W) < 1 := Int.fract_lt_one _
  have hmod : x - W * (⌊x / W⌋ : ℚ) = W * Int.fract (x / W) := by
    rw [Int.fract]
    field_simp
  refine ⟨by simp [skinIndexes, hi], by simp [skinWeights, hf], ?_, ?_, by ring, ?_, ?_, ?_⟩
  · rw [hf, hmod]
    field_simp
  · rw [hmod]
    constructor
    · positivity
    · nlinarith
  · simp [skinWeights]
  · rw [hf]
    exact ⟨h0, h1.le⟩
  · rw [hf]
    constructor <;> linarith

/-- Witness for C7: with segment width 1/2, the vertex at offset 5/4 is bound to joints 2
and 3 with weights 1/2 and 1/2. -/
theorem skin_weights_witness :
    skinIndexes (1 / 2) (5 / 4) = [2, 3, 0, 0] ∧
    skinWeights (1 / 2) (5 / 4) = [1 / 2, 1 / 2, 0, 0] := by
  have key := skin_weights (1 / 2) (5 / 4) (by norm_num) (by norm_num)
  have hfl : ⌊(5 / 4 : ℚ) / (1 / 2)⌋ = 2 := by
    rw [Int.floor_eq_iff]
    constructor <;> norm_num
  have hfr : Int.fract ((5 / 4 : ℚ) / (1 / 2)) = 1 / 2 := by
    rw [Int.fract, hfl]
    norm_num
  refine ⟨?_, ?_⟩
  · rw [key.1, hfl]
    rfl
  · rw [key.2.1, hfr]
    norm_num

/-- C10: in exact arithmetic, for `N` segments of width `W > 0` and a vertex at offset
`0 ≤ x ≤ N * W`, every index pushed with a non-zero weight lies in `0..N`; the index
`N + 1` is pushed only when `x = N * W`, and then with weight 0; at `x = N * W` the
indices are `N`, `N + 1`, 0, 0 and the weights 1, 0, 0, 0. -/
theorem skin_indices_in_chain (N : Nat) (W x : ℚ) (hW : 0 < W) (hx : 0 ≤ x)
    (hxN : x ≤ N * W) :
    (∀ p ∈ List.zip (skinIndexes W x) (skinWeights W x),
      (p.2 ≠ 0 → 0 ≤ p.1 ∧ p.1 ≤ (N : Int)) ∧
      (p.1 = (N : Int) + 1 → x = N * W ∧ p.2 = 0)) ∧
    (x = N * W →
      skinIndexes W x = [(N : Int), (N : Int) + 1, 0, 0] ∧ skinWeights W x = [1, 0, 0, 0]) := by
  have hf := skinWeight_eq_fract hW hx
  have hi := skinIndex_eq_floor hW hx
  have hle := floor_le_segments hW hxN
  have h0 : 0 ≤ ⌊x / W⌋ := Int.floor_nonneg.mpr (div_nonneg hx hW.le)
  constructor
  · intro p hp
    simp only [skinIndexes, skinWeights, List.zip_cons_cons, List.zip_nil_right,
      List.mem_cons, List.mem_singleton, List.not_mem_nil, or_false, hi, hf] at hp
    rcases hp with rfl | rfl | rfl | rfl
    · refine ⟨fun _ => ⟨h0, hle⟩, fun h => ?_⟩
      simp only at h
      omega
    · constructor
      · intro hne
        simp only at hne ⊢
        refine ⟨by omega, ?_⟩
        by_contra hcon
        have heq : ⌊x / W⌋ = (N : Int) := by omega
        exact hne (far_edge_of_floor_eq hW hxN heq).2
      · intro h
        simp only at h ⊢
        exact far_edge_of_floor_eq hW hxN (by omega)
    · refine ⟨fun h => absurd rfl h, fun h => ?_⟩
      simp only at h
      omega
    · refine ⟨fun h => absurd rfl h, fun h => ?_⟩
      simp only at h
      omega
  · intro hxe
    have hq : x / W = ((N : Int) : ℚ) := by
      rw [hxe, mul_div_assoc, div_self hW.ne', mul_one]
      simp
    have hfl : ⌊x / W⌋ = (N : Int) := by
      rw [hq]
      exact Int.floor_intCast _
    have hfr : Int.fract (x / W) = 0 := by
      rw [hq]
      exact Int.fract_intCast _
    simp [skinIndexes, skinWeights, hi, hf, hfl, hfr]

/-- Witness for C10: with 3 segments of width 1/2, the vertex at the far edge 3/2 gets
indices 3, 4, 0, 0 with weights 1, 0, 0, 0, so index 4 carries weight 0. -/
theorem skin_indices_in_chain_witness :
    skinIndexes (1 / 2) (3 / 2) = [3, 4, 0, 0] ∧ skinWeights (1 / 2) (3 / 2) = [1, 0, 0, 0] := by
  have key := (skin_indices_in_chain 3 (1 / 2) (3 / 2) (by norm_num) (by norm_num)
    (by norm_num)).2 (by norm_num)
  refine ⟨?_, key.2⟩
  rw [key.1]
  rfl

/-! ### Lemmas on the skeleton loop -/

lemma bonesLoop_closed (N : Nat) (W : ℚ) (r : Nat) :
    ∀ (i fuel : Nat) (acc : List Bone), i + r = N + 1 → r < fuel →
      bonesLoop N W fuel i acc
        = some (acc ++ (List.range r).map (fun k =>
            (⟨if i + k = 0 then 0 else W, if i + k > 0 then some (i + k - 1) else none⟩ :
              Bone))) := by
  induction r with
  | zero =>
    intro i fuel acc hi hf
    obtain ⟨f, rfl⟩ : ∃ f, fuel = f + 1 := ⟨fuel - 1, by omega⟩
    have hcond : ¬ i ≤ N := by omega
    rw [bonesLoop, if_neg hcond]
    simp
  | succ r ih =>
    intro i fuel acc hi hf
    obtain ⟨f, rfl⟩ : ∃ f, fuel = f + 1 := ⟨fuel - 1, by omega⟩
    have hcond : i ≤ N := by omega
    rw [bonesLoop, if_pos hcond, ih (i + 1) f _ (by omega) (by omega),
      List.range_succ_eq_map]
    simp only [List.append_assoc, List.singleton_append, List.map_cons, List.map_map,
      Nat.add_zero]
    congr 3
    apply List.map_congr_left
    intro k _
    simp only [Function.comp, Nat.succ_eq_add_one]
    have : i + 1 + k = i + (k + 1) := by ring
    rw [this]

lemma buildBones_eq (N : Nat) (W : ℚ) :
    buildBones N W = some ((List.range (N + 1)).map (fun k =>
      (⟨if k = 0 then 0 else W, if k > 0 then some (k - 1) else none⟩ : Bone))) := by
  have := bonesLoop_closed N W (N + 1) 0 (N + 2) [] (by omega) (by omega)
  simpa [buildBones] using this

lemma bones_getElem? (N : Nat) (W : ℚ) (i : Nat) (hi : i ≤ N) :
    ((List.range (N + 1)).map (fun k =>
      (⟨if k = 0 then 0 else W, if k > 0 then some (k - 1) else none⟩ : Bone)))[i]?
      = some ⟨if i = 0 then 0 else W, if i > 0 then some (i - 1) else none⟩ := by
  rw [List.getElem?_map, List.getElem?_range (by omega)]
  rfl

lemma restX_chain (N : Nat) (W : ℚ) :
    ∀ (fuel i : Nat), i < fuel → i ≤ N →
      restX ((List.range (N + 1)).map (fun k =>
        (⟨if k = 0 then 0 else W, if k > 0 then some (k - 1) else none⟩ : Bone))) fuel i
        = (i : ℚ) * W := by
  intro fuel
  induction fuel with
  | zero => intro i hi; omega
  | succ f ih =>
    intro i hi hN
    rw [restX, bones_getElem? N W i hN]
    rcases Nat.eq_zero_or_pos i with h0 | hpos
    · subst h0
      simp
    · have hne : i ≠ 0 := by omega
      simp only [hne, if_false, hpos, if_true]
      rw [ih (i - 1) (by omega) (by omega)]
      have : ((i - 1 : Nat) : ℚ) = (i : ℚ) - 1 := by
        rw [Nat.cast_sub (by omega)]
        simp
      rw [this]
      ring

/-- C8: for every segment count `N` and width `W` the loop ends with exactly `N + 1`
bones; bone 0 has local offset 0 and is added to no bone; every bone `i > 0` has local
offset `W` and was added to bone `i - 1`; so in the rest pose bone `i` sits at `i * W` from
the root along the bend axis. -/
theorem skeleton_builder (N : Nat) (W : ℚ) :
    ∃ bones, buildBones N W = some bones ∧
      bones.length = N + 1 ∧
      bones[0]? = some ⟨0, none⟩ ∧
      (∀ i, 0 < i → i ≤ N → bones[i]? = some ⟨W, some (i - 1)⟩) ∧
      (∀ i, i ≤ N → restX bones (N + 1) i = (i : ℚ) * W) := by
  refine ⟨_, buildBones_eq N W, by simp, ?_, ?_, ?_⟩
  · rw [bones_getElem? N W 0 (by omega)]
    simp
  · intro i hpos hN
    have hne : i ≠ 0 := by omega
    rw [bones_getElem? N W i hN]
    simp [hne, hpos]
  · intro i hN
    exact restX_chain N W (N + 1) i (by omega) hN

/-- Witness for C8: the repository's 30 segments of width 1.28 / 30 give 31 bones, the
last one at 1.28 from the root in the rest pose and added to bone 29. -/
theorem skeleton_builder_witness :
    ∃ bones, buildBones 30 (128 / 3000) = some bones ∧ bones.length = 31 ∧
      bones[30]? = some ⟨128 / 3000, some 29⟩ ∧ restX bones 31 30 = 128 / 100 := by
  obtain ⟨bones, h1, h2, _, h4, h5⟩ := skeleton_builder 30 (128 / 3000)
  refine ⟨bones, h1, h2, h4 30 (by decide) (by decide), ?_⟩
  rw [h5 30 (by decide)]
  norm_num

/-! ### The frame callback -/

lemma useFrame_turn_refs (meshReady highlighted opened : Bool) (now : Nat) (r : PageRefs) :
    (useFrame meshReady highlighted opened now r).turnedAt = r.turnedAt ∧
      (useFrame meshReady highlighted opened now r).lastOpened = r.lastOpened := by
  unfold useFrame
  split <;> exact ⟨rfl, rfl⟩

/-- C9 at the failing input: page 0 is mounted closed (`delayedPage = 0`), then
`delayedPage` becomes 1, so `opened` differs from `lastOpened`; the frame at time 1000
leaves `turnedAt = 0` and `lastOpened = false`. -/
theorem frame_step_failing_input :
    openedProp 0 0 = false ∧ openedProp 1 0 = true ∧
    (PageRefs.mount (openedProp 0 0)).lastOpened ≠ openedProp 1 0 ∧
    (useFrame true false (openedProp 1 0) 1000 (PageRefs.mount (openedProp 0 0))).turnedAt
      = 0 ∧
    (useFrame true false (openedProp 1 0) 1000 (PageRefs.mount (openedProp 0 0))).lastOpened
      = false := by
  refine ⟨by decide, by decide, by decide, ?_, ?_⟩ <;> simp [useFrame, PageRefs.mount, openedProp]

end BookGlide
